import Mathlib

/-!
# ZIP 2.0 "traditional" stream cipher: `_zipdecrypt.c`

A shallow embedding of `src/ies2/lib/zipdecrypt/_zipdecrypt.c`.

* A C `int` is modelled by its value, a Lean `Int`.  The bitwise operators of C
  act on the 32-bit two's complement pattern of their operands (`toU32`), and
  the result pattern is read back as a signed value (`toI32`).  Signed `+` and
  `*` wrap modulo `2^32`.  `>>` on an `int` is the arithmetic shift.
* `int` has 32 bits and `char` is signed (value in `-128 .. 127`), as on the
  platforms the extension is built for.
* A byte of a buffer is its 8-bit pattern (`Byte = Fin 256`); reading it
  through a `char*` gives the sign-extended value (`charVal`), storing an `int`
  into it keeps the low eight bits (`storeChar`).
* The Python entry points are modelled on their success path: a call whose
  argument cannot be parsed, or whose output buffer cannot be allocated, returns
  before any register or byte is touched.
-/

namespace ZipDecrypt

/-! ## Machine integers -/

/-- The 32-bit pattern of an `int` value (conversion to `unsigned int`). -/
def toU32 (x : Int) : Nat := (x % 4294967296).toNat

/-- The `int` value of a 32-bit pattern (conversion of an `unsigned int` to `int`). -/
def toI32 (n : Nat) : Int :=
  if n % 4294967296 < 2147483648 then ((n % 4294967296 : Nat) : Int)
  else ((n % 4294967296 : Nat) : Int) - 4294967296

/-- C `a & b` on two `int`s. -/
def int_and (a b : Int) : Int := toI32 (toU32 a &&& toU32 b)

/-- C `a | b` on two `int`s. -/
def int_or (a b : Int) : Int := toI32 (toU32 a ||| toU32 b)

/-- C `a ^ b` on two `int`s. -/
def int_xor (a b : Int) : Int := toI32 (toU32 a ^^^ toU32 b)

/-- C `a >> n` on an `int`: the arithmetic shift, which keeps the sign. -/
def int_shr (a : Int) (n : Nat) : Int := Int.shiftRight a n

/-- C `a + b` on two `int`s, wrapping modulo `2^32`. -/
def int_add (a b : Int) : Int := toI32 (toU32 (a + b))

/-- C `a * b` on two `int`s, wrapping modulo `2^32`. -/
def int_mul (a b : Int) : Int := toI32 (toU32 (a * b))

/-- C `a & 0xFFFFFFFF` stored in an `int`: the constant does not fit an `int`,
so it is an `unsigned int`; `a` is converted to `unsigned int`, the conjunction
is taken there and the result is converted back on assignment. -/
def int_and_u32 (a : Int) (m : Nat) : Int := toI32 (toU32 a &&& m)

/-- Conversion of an `int` to `char`: the low eight bits, read as a signed value. -/
def toChar (x : Int) : Int :=
  if toU32 x % 256 < 128 then ((toU32 x % 256 : Nat) : Int)
  else ((toU32 x % 256 : Nat) : Int) - 256

/-- Conversion of an `int` to `unsigned short`: the low sixteen bits. -/
def toUShort (x : Int) : Int := ((toU32 x % 65536 : Nat) : Int)

/-- A byte of a buffer, as its 8-bit pattern. -/
abbrev Byte := Fin 256

/-- Reading a byte through a `char*`: the sign-extended value. -/
def charVal (b : Byte) : Int := if b.val < 128 then (b.val : Int) else (b.val : Int) - 256

/-- Storing an `int` through a `char*`: the low eight bits are kept. -/
def storeChar (x : Int) : Byte := ⟨toU32 x % 256, Nat.mod_lt _ (by decide)⟩

/-! ## The CRC table -/

/-- The constant `static const int _CRC_POLY = 0xedb88320;`: the literal exceeds
`INT_MAX` and is converted to `int`, which makes it negative. -/
def _CRC_POLY : Int := toI32 0xedb88320

/-- One round of the inner loop of `_build_crc_table`. -/
def crc_round (crc : Int) : Int :=
  if int_and crc 1 ≠ 0 then
    int_xor (int_and (int_shr crc 1) 0x7FFFFFFF) _CRC_POLY
  else
    int_and (int_shr crc 1) 0x7FFFFFFF

/-- The body of the outer loop of `_build_crc_table`: `crc = i`, then eight rounds. -/
def crc_entry (i : Nat) : Int :=
  (List.range 8).foldl (fun crc _ => crc_round crc) (i : Int)

/-- The table `_CRC_TABLE` as `_build_crc_table` leaves it. -/
def _build_crc_table : List Int := (List.range 256).map crc_entry

/-- The global `_CRC_TABLE`, after module initialisation has run `_build_crc_table`. -/
def _CRC_TABLE : List Int := _build_crc_table

/-- The index `(crc ^ c) & 0xff` that `_crc32` uses. -/
def crc_index (c : Int) (crc : Int) : Int := int_and (int_xor crc c) 0xff

/-- The function `_crc32(char c, int crc)`; `c` is the value of the `char`,
promoted to `int` inside the expression. -/
def _crc32 (c : Int) (crc : Int) : Int :=
  int_xor (int_and (int_shr crc 8) 0xffffff) (_CRC_TABLE.getD (crc_index c crc).toNat 0)

/-! ## The key registers -/

/-- The three `int` registers of a `ZipDecrypter` object. -/
structure ZipDecrypter where
  key0 : Int
  key1 : Int
  key2 : Int
deriving DecidableEq

/-- The function `_update_keys(char c, int* key0, int* key1, int* key2)`: the
four assignments in order.  The argument of the second `_crc32` call is an
`int` in `0 .. 255` converted to `char`. -/
def _update_keys (c : Int) (s : ZipDecrypter) : ZipDecrypter :=
  let key0 := _crc32 c s.key0
  let key1 := int_and_u32 (int_add s.key1 (int_and key0 255)) 0xFFFFFFFF
  let key1 := int_and_u32 (int_add (int_mul key1 134775813) 1) 0xFFFFFFFF
  let key2 := _crc32 (toChar (int_and (int_shr key1 24) 255)) s.key2
  { key0 := key0, key1 := key1, key2 := key2 }

/-- The keystream expression of both loops:
`unsigned short k = (*key2 & 0xFFFF) | 2;` then `((k * (k^1)) >> 8) & 255`,
where `k` is promoted to `int` and the product wraps. -/
def keystream (key2 : Int) : Int :=
  let k := toUShort (int_or (int_and key2 0xFFFF) 2)
  int_and (int_shr (int_mul k (int_xor k 1)) 8) 255

/-- The loop of `zipdecrypter_decrypt`: the buffer is rewritten in place; the
result is the buffer and the registers after the loop.  The key update reads
the byte just stored. -/
def zipdecrypter_decrypt : List Byte → ZipDecrypter → List Byte × ZipDecrypter
  | [], s => ([], s)
  | b :: rest, s =>
    let p := storeChar (int_xor (charVal b) (keystream s.key2))
    let r := zipdecrypter_decrypt rest (_update_keys (charVal p) s)
    (p :: r.1, r.2)

/-- The loop of `zipdecrypter_encrypt`: as `zipdecrypter_decrypt`, but the key
update takes the byte read before it is overwritten. -/
def zipdecrypter_encrypt : List Byte → ZipDecrypter → List Byte × ZipDecrypter
  | [], s => ([], s)
  | b :: rest, s =>
    let c := charVal b
    let o := storeChar (int_xor c (keystream s.key2))
    let r := zipdecrypter_encrypt rest (_update_keys c s)
    (o :: r.1, r.2)

/-- The function `zipdecrypter_init` on the bytes of the password: the three
constants, then one `_update_keys` per password byte. -/
def zipdecrypter_init (pwd : List Byte) : ZipDecrypter :=
  pwd.foldl (fun s b => _update_keys (charVal b) s)
    { key0 := 305419896, key1 := 591751049, key2 := 878082192 }

/-- The function `zipdecrypter_call` (the object called on a buffer): the input
is copied, the copy is decrypted in place with the registers of `self`, and
returned as a new bytes object of the same length. -/
def zipdecrypter_call (self : ZipDecrypter) (cipher_buf : List Byte) :
    List Byte × ZipDecrypter :=
  zipdecrypter_decrypt cipher_buf self

/-- The function `zipdecrypter_e` (method `e`): as `zipdecrypter_call`, with
`zipdecrypter_encrypt`. -/
def zipdecrypter_e (self : ZipDecrypter) (cipher_buf : List Byte) :
    List Byte × ZipDecrypter :=
  zipdecrypter_encrypt cipher_buf self

/-! ## Streaming use -/

/-- Sequential calls of one operation on one handle: each chunk is passed to `f`
with the registers the previous call left; the outputs are collected in order. -/
def feed (f : ZipDecrypter → List Byte → List Byte × ZipDecrypter) :
    ZipDecrypter → List (List Byte) → List (List Byte) × ZipDecrypter
  | s, [] => ([], s)
  | s, c :: cs =>
    let r := f s c
    let t := feed f r.2 cs
    (r.1 :: t.1, t.2)

/-! ## The unsigned reading of the specification -/

/-- One round of the table construction on unsigned 32-bit values:
`crc = (crc >> 1) XOR 0xEDB88320` if the low bit is set, else `crc >> 1`. -/
def spec_crc_round (crc : Nat) : Nat :=
  if crc % 2 = 1 then (crc >>> 1) ^^^ 0xEDB88320 else crc >>> 1

/-- The table of the specification: entry `i` is eight rounds from `crc = i`. -/
def spec_CrcTable : List Nat :=
  (List.range 256).map (fun i => (List.range 8).foldl (fun crc _ => spec_crc_round crc) i)

/-- The `crc32_step(byte, crc)` of the specification, on unsigned 32-bit values. -/
def spec_crc32_step (byte crc : Nat) : Nat :=
  ((crc >>> 8) &&& 0x00FFFFFF) ^^^ spec_CrcTable.getD ((crc ^^^ byte) &&& 0xFF) 0

/-- The four steps of `update_keys(byte, state)` of the specification, on
unsigned 32-bit registers `(key0, key1, key2)`. -/
def spec_update_keys (byte : Nat) (st : Nat × Nat × Nat) : Nat × Nat × Nat :=
  let key0 := spec_crc32_step byte st.1
  let key1 := (st.2.1 + (key0 &&& 0xFF)) % 4294967296
  let key1 := (key1 * 134775813 + 1) % 4294967296
  let key2 := spec_crc32_step ((key1 >>> 24) &&& 0xFF) st.2.2
  (key0, key1, key2)

/-! ## Conversion lemmas -/

theorem toU32_lt (x : Int) : toU32 x < 4294967296 := by
  unfold toU32; omega

theorem toU32_toI32 (n : Nat) : toU32 (toI32 n) = n % 4294967296 := by
  unfold toU32 toI32; split <;> omega

theorem toU32_toI32_of_lt {n : Nat} (h : n < 4294967296) : toU32 (toI32 n) = n := by
  rw [toU32_toI32]; omega

theorem toU32_natCast (n : Nat) : toU32 (n : Int) = n % 4294967296 := by
  unfold toU32; omega

theorem toU32_int_and (a b : Int) : toU32 (int_and a b) = toU32 a &&& toU32 b :=
  toU32_toI32_of_lt (Nat.and_lt_two_pow _ (n := 32) (toU32_lt b))

theorem toU32_int_xor (a b : Int) : toU32 (int_xor a b) = toU32 a ^^^ toU32 b :=
  toU32_toI32_of_lt (Nat.xor_lt_two_pow (n := 32) (toU32_lt a) (toU32_lt b))

theorem toU32_int_or (a b : Int) : toU32 (int_or a b) = toU32 a ||| toU32 b :=
  toU32_toI32_of_lt (Nat.or_lt_two_pow (n := 32) (toU32_lt a) (toU32_lt b))

theorem xor_mod_256 (a b : Nat) : (a ^^^ b) % 256 = (a % 256) ^^^ (b % 256) := by
  apply Nat.eq_of_testBit_eq
  intro i
  have h := Nat.testBit_mod_two_pow (a ^^^ b) 8 i
  have ha := Nat.testBit_mod_two_pow a 8 i
  have hb := Nat.testBit_mod_two_pow b 8 i
  norm_num at h ha hb
  rw [h, Nat.testBit_xor, ha, hb]
  by_cases hi : i < 8 <;> simp [hi]

theorem storeChar_val (x : Int) : (storeChar x).val = toU32 x % 256 := rfl

theorem toU32_charVal_mod (b : Byte) : toU32 (charVal b) % 256 = b.val := by
  have := b.isLt
  unfold toU32 charVal; split <;> omega

theorem storeChar_xor_val (a k : Int) :
    (storeChar (int_xor a k)).val = (toU32 a % 256) ^^^ (toU32 k % 256) := by
  rw [storeChar_val, toU32_int_xor, xor_mod_256]

theorem storeChar_xor_charVal (b : Byte) (k : Int) :
    (storeChar (int_xor (charVal b) k)).val = b.val ^^^ (toU32 k % 256) := by
  rw [storeChar_xor_val, toU32_charVal_mod]

theorem xor_cancel_byte (b : Byte) (k : Int) :
    storeChar (int_xor (charVal (storeChar (int_xor (charVal b) k))) k) = b := by
  apply Fin.ext
  rw [storeChar_xor_charVal, storeChar_xor_charVal, Nat.xor_assoc, Nat.xor_self, Nat.xor_zero]


/-! ## Streaming lemmas -/

theorem decrypt_encrypt_pair (S : List Byte) (s : ZipDecrypter) :
    zipdecrypter_decrypt (zipdecrypter_encrypt S s).1 s = (S, (zipdecrypter_encrypt S s).2) := by
  induction S generalizing s with
  | nil => rfl
  | cons b rest ih =>
    simp only [zipdecrypter_encrypt, zipdecrypter_decrypt, xor_cancel_byte, ih]

theorem encrypt_decrypt_pair (C : List Byte) (s : ZipDecrypter) :
    zipdecrypter_encrypt (zipdecrypter_decrypt C s).1 s = (C, (zipdecrypter_decrypt C s).2) := by
  induction C generalizing s with
  | nil => rfl
  | cons b rest ih =>
    simp only [zipdecrypter_encrypt, zipdecrypter_decrypt, xor_cancel_byte, ih]

theorem decrypt_append (A B : List Byte) (s : ZipDecrypter) :
    zipdecrypter_decrypt (A ++ B) s =
      ((zipdecrypter_decrypt A s).1 ++ (zipdecrypter_decrypt B (zipdecrypter_decrypt A s).2).1,
        (zipdecrypter_decrypt B (zipdecrypter_decrypt A s).2).2) := by
  induction A generalizing s with
  | nil => rfl
  | cons b rest ih =>
    simp only [List.cons_append, zipdecrypter_decrypt, List.append_eq, ih]

theorem encrypt_append (A B : List Byte) (s : ZipDecrypter) :
    zipdecrypter_encrypt (A ++ B) s =
      ((zipdecrypter_encrypt A s).1 ++ (zipdecrypter_encrypt B (zipdecrypter_encrypt A s).2).1,
        (zipdecrypter_encrypt B (zipdecrypter_encrypt A s).2).2) := by
  induction A generalizing s with
  | nil => rfl
  | cons b rest ih =>
    simp only [List.cons_append, zipdecrypter_encrypt, List.append_eq, ih]

theorem feed_call_flatten (chunks : List (List Byte)) (s : ZipDecrypter) :
    ((feed zipdecrypter_call s chunks).1.flatten, (feed zipdecrypter_call s chunks).2) =
      zipdecrypter_call s chunks.flatten := by
  induction chunks generalizing s with
  | nil => rfl
  | cons c cs ih =>
    have h := ih (zipdecrypter_call s c).2
    simp only [zipdecrypter_call, Prod.ext_iff] at h ⊢
    simp only [feed, List.flatten, decrypt_append, zipdecrypter_call, h.1, h.2, and_self]

theorem feed_e_flatten (chunks : List (List Byte)) (s : ZipDecrypter) :
    ((feed zipdecrypter_e s chunks).1.flatten, (feed zipdecrypter_e s chunks).2) =
      zipdecrypter_e s chunks.flatten := by
  induction chunks generalizing s with
  | nil => rfl
  | cons c cs ih =>
    have h := ih (zipdecrypter_e s c).2
    simp only [zipdecrypter_e, Prod.ext_iff] at h ⊢
    simp only [feed, List.flatten, encrypt_append, zipdecrypter_e, h.1, h.2, and_self]

theorem encrypt_keys (X : List Byte) (s : ZipDecrypter) :
    (zipdecrypter_encrypt X s).2 = X.foldl (fun s b => _update_keys (charVal b) s) s := by
  induction X generalizing s with
  | nil => rfl
  | cons b rest ih => simp only [zipdecrypter_encrypt, List.foldl_cons, ih]

theorem decrypt_keys (X : List Byte) (s : ZipDecrypter) :
    (zipdecrypter_decrypt X s).2 =
      (zipdecrypter_decrypt X s).1.foldl (fun s b => _update_keys (charVal b) s) s := by
  induction X generalizing s with
  | nil => rfl
  | cons b rest ih =>
    simp only [zipdecrypter_decrypt, List.foldl_cons]
    exact ih _

theorem init_append (P X : List Byte) :
    zipdecrypter_init (P ++ X) =
      X.foldl (fun s b => _update_keys (charVal b) s) (zipdecrypter_init P) := by
  simp only [zipdecrypter_init, List.foldl_append]

theorem decrypt_length (C : List Byte) (s : ZipDecrypter) :
    (zipdecrypter_decrypt C s).1.length = C.length := by
  induction C generalizing s with
  | nil => rfl
  | cons b rest ih => simp only [zipdecrypter_decrypt, List.length_cons, ih]

theorem encrypt_length (C : List Byte) (s : ZipDecrypter) :
    (zipdecrypter_encrypt C s).1.length = C.length := by
  induction C generalizing s with
  | nil => rfl
  | cons b rest ih => simp only [zipdecrypter_encrypt, List.length_cons, ih]


theorem and_255 (x : Nat) : x &&& 255 = x % 256 := Nat.and_pow_two_sub_one_eq_mod x 8

theorem and_65535 (x : Nat) : x &&& 65535 = x % 65536 := Nat.and_pow_two_sub_one_eq_mod x 16

theorem and_16777215 (x : Nat) : x &&& 16777215 = x % 16777216 :=
  Nat.and_pow_two_sub_one_eq_mod x 24

theorem and_4294967295 (x : Nat) : x &&& 4294967295 = x % 4294967296 :=
  Nat.and_pow_two_sub_one_eq_mod x 32

theorem int_shr_eq_div (a : Int) (n : Nat) : int_shr a n = a / ((2 ^ n : Nat) : Int) :=
  Int.shiftRight_eq_div_pow a n

theorem toU32_int_and_255 (a : Int) : toU32 (int_and a 255) = toU32 a % 256 := by
  rw [toU32_int_and, show toU32 255 = 255 from rfl, and_255]

theorem int_and_255_eq (a : Int) : int_and a 255 = ((toU32 a % 256 : Nat) : Int) := by
  have h : toU32 a &&& toU32 255 = toU32 a % 256 := by
    rw [show toU32 255 = 255 from rfl, and_255]
  unfold int_and
  rw [h]
  unfold toI32
  split <;> omega

theorem keystream_eq_cast (key2 : Int) :
    keystream key2 = ((toU32 (keystream key2) % 256 : Nat) : Int) := by
  unfold keystream
  simp only [int_and_255_eq, toU32_natCast]
  omega


theorem toU32_mod_65536 (x : Int) : toU32 x % 65536 = (x % 65536).toNat := by
  unfold toU32; omega

theorem ushort_k_eq (key2 : Int) :
    toUShort (int_or (int_and key2 0xFFFF) 2) = ((((key2 % 65536).toNat ||| 2 : Nat)) : Int) := by
  have hlt : (key2 % 65536).toNat ||| 2 < 2 ^ 16 :=
    Nat.or_lt_two_pow (by omega) (by decide)
  unfold toUShort
  rw [toU32_int_or, toU32_int_and, show toU32 0xFFFF = 65535 from rfl,
    show toU32 2 = 2 from rfl, and_65535, toU32_mod_65536]
  congr 1
  omega

theorem int_xor_one_small (k : Nat) (hk : k < 65536) :
    int_xor (k : Int) 1 = ((k ^^^ 1 : Nat) : Int) := by
  have hlt : k ^^^ 1 < 2 ^ 16 := Nat.xor_lt_two_pow hk (by decide)
  unfold int_xor
  rw [toU32_natCast, show toU32 1 = 1 from rfl, Nat.mod_eq_of_lt (by omega)]
  unfold toI32
  split <;> omega

theorem keystream_exact (key2 : Int) :
    keystream key2 =
      (((((key2 % 65536).toNat ||| 2) * (((key2 % 65536).toNat ||| 2) ^^^ 1) / 256 % 256 : Nat)) :
        Int) := by
  have hlt : (key2 % 65536).toNat ||| 2 < 2 ^ 16 :=
    Nat.or_lt_two_pow (by omega) (by decide)
  unfold keystream
  simp only [ushort_k_eq]
  rw [int_xor_one_small _ hlt, int_and_255_eq, int_shr_eq_div]
  generalize (key2 % 65536).toNat ||| 2 = k
  generalize k ^^^ 1 = k'
  unfold int_mul
  have hc : ((k : Int) * (k' : Int)) = ((k * k' : Nat) : Int) := by push_cast; rfl
  rw [hc]
  generalize k * k' = N
  rw [toU32_natCast]
  unfold toU32 toI32
  norm_num
  split <;> omega


/-! ## Signed code against the unsigned reading -/

theorem table_patterns : _CRC_TABLE.map toU32 = spec_CrcTable := by decide!

theorem table_entry_pattern (i : Nat) :
    toU32 (_CRC_TABLE.getD i 0) = spec_CrcTable.getD i 0 := by
  rw [← table_patterns]
  simp only [List.getD_eq_getElem?_getD, List.getElem?_map]
  cases _CRC_TABLE[i]? <;> rfl

theorem xor_mod_256_right (a c : Nat) : (a ^^^ c % 256) % 256 = (a ^^^ c) % 256 := by
  rw [xor_mod_256, xor_mod_256 a c, Nat.mod_mod]

theorem crc_index_toNat (c crc : Int) :
    (crc_index c crc).toNat = (toU32 crc ^^^ (c % 256).toNat) &&& 0xFF := by
  have hc : (c % 256).toNat = toU32 c % 256 := by unfold toU32; omega
  unfold crc_index
  rw [show (0xff : Int) = 255 from rfl, int_and_255_eq, toU32_int_xor, hc,
    show (0xFF : Nat) = 255 from rfl, and_255, xor_mod_256_right]
  rfl

theorem toU32_shr8_mask (crc : Int) :
    toU32 (int_and (int_shr crc 8) 0xffffff) = (toU32 crc >>> 8) &&& 0x00FFFFFF := by
  rw [toU32_int_and, show toU32 0xffffff = 16777215 from rfl,
    show (0x00FFFFFF : Nat) = 16777215 from rfl, and_16777215, and_16777215,
    Nat.shiftRight_eq_div_pow, int_shr_eq_div]
  unfold toU32
  norm_num
  omega

theorem toU32_crc32 (c crc : Int) :
    toU32 (_crc32 c crc) = spec_crc32_step (c % 256).toNat (toU32 crc) := by
  unfold _crc32 spec_crc32_step
  rw [toU32_int_xor, toU32_shr8_mask, table_entry_pattern, crc_index_toNat]

theorem toU32_int_and_u32 (a : Int) : toU32 (int_and_u32 a 0xFFFFFFFF) = toU32 a := by
  unfold int_and_u32
  rw [show (0xFFFFFFFF : Nat) = 4294967295 from rfl, and_4294967295, toU32_toI32]
  have := toU32_lt a
  omega

theorem toU32_cast (x : Int) : ((toU32 x : Nat) : Int) = x % 4294967296 := by
  unfold toU32; omega

theorem toU32_int_add (a b : Int) :
    toU32 (int_add a b) = (toU32 a + toU32 b) % 4294967296 := by
  unfold int_add
  rw [toU32_toI32]
  unfold toU32
  omega

theorem toU32_int_mul (a b : Int) :
    toU32 (int_mul a b) = (toU32 a * toU32 b) % 4294967296 := by
  unfold int_mul
  rw [toU32_toI32]
  have h : ((toU32 (a * b) : Nat) : Int) = (((toU32 a * toU32 b) % 4294967296 : Nat) : Int) := by
    push_cast
    rw [toU32_cast, toU32_cast, toU32_cast, ← Int.mul_emod]
  have h2 : toU32 (a * b) = (toU32 a * toU32 b) % 4294967296 := by exact_mod_cast h
  rw [h2, Nat.mod_mod]

theorem toChar_byte (x : Int) : (toChar x % 256).toNat = toU32 x % 256 := by
  unfold toChar
  split <;> omega

theorem toU32_key1_add (a b : Int) :
    toU32 (int_and_u32 (int_add a (int_and b 255)) 0xFFFFFFFF) =
      (toU32 a + (toU32 b &&& 0xFF)) % 4294967296 := by
  rw [toU32_int_and_u32, toU32_int_add, toU32_int_and_255, show (0xFF : Nat) = 255 from rfl,
    and_255]

theorem toU32_key1_mul (a : Int) :
    toU32 (int_and_u32 (int_add (int_mul a 134775813) 1) 0xFFFFFFFF) =
      (toU32 a * 134775813 + 1) % 4294967296 := by
  rw [toU32_int_and_u32, toU32_int_add, toU32_int_mul,
    show toU32 134775813 = 134775813 from rfl, show toU32 1 = 1 from rfl]
  omega

theorem toU32_crc32_shr24 (a k : Int) :
    toU32 (_crc32 (toChar (int_and (int_shr a 24) 255)) k) =
      spec_crc32_step ((toU32 a >>> 24) &&& 0xFF) (toU32 k) := by
  rw [toU32_crc32, toChar_byte, toU32_int_and_255, show (0xFF : Nat) = 255 from rfl, and_255,
    Nat.shiftRight_eq_div_pow, int_shr_eq_div]
  congr 1
  unfold toU32
  norm_num
  omega

theorem update_keys_patterns (c : Int) (s : ZipDecrypter) :
    (toU32 (_update_keys c s).key0, toU32 (_update_keys c s).key1,
        toU32 (_update_keys c s).key2) =
      spec_update_keys (c % 256).toNat (toU32 s.key0, toU32 s.key1, toU32 s.key2) := by
  unfold _update_keys spec_update_keys
  simp only [toU32_crc32_shr24]
  simp only [toU32_key1_mul, toU32_key1_add, toU32_crc32]


theorem keystream_toNat (key2 : Int) : (keystream key2).toNat = toU32 (keystream key2) % 256 := by
  have h := keystream_eq_cast key2
  omega

theorem decrypt_byte_at (C : List Byte) (s : ZipDecrypter) (i : Nat) (h : i < C.length) :
    ((zipdecrypter_decrypt C s).1[i]?).map Fin.val =
      some (C[i].val ^^^
        (keystream (((zipdecrypter_decrypt C s).1.take i).foldl
          (fun s b => _update_keys (charVal b) s) s).key2).toNat) := by
  induction C generalizing s i with
  | nil => simp at h
  | cons b rest ih =>
    cases i with
    | zero =>
      simp only [zipdecrypter_decrypt, List.getElem?_cons_zero, Option.map_some',
        List.take_zero, List.foldl_nil, List.getElem_cons_zero, storeChar_xor_charVal,
        keystream_toNat]
    | succ j =>
      have hj : j < rest.length := by simpa using h
      simp only [zipdecrypter_decrypt, List.getElem?_cons_succ, List.take_succ_cons,
        List.foldl_cons, List.getElem_cons_succ]
      exact ih _ j hj

/-! ## Ranges -/

theorem toI32_range (n : Nat) : -2147483648 ≤ toI32 n ∧ toI32 n < 2147483648 := by
  unfold toI32; split <;> omega

theorem crc32_range (c crc : Int) : -2147483648 ≤ _crc32 c crc ∧ _crc32 c crc < 2147483648 :=
  toI32_range _

theorem shr8_mask_range (crc : Int) :
    0 ≤ int_and (int_shr crc 8) 0xffffff ∧ int_and (int_shr crc 8) 0xffffff < 16777216 := by
  have h : toU32 (int_shr crc 8) &&& toU32 0xffffff < 16777216 := by
    rw [show toU32 0xffffff = 16777215 from rfl, and_16777215]; omega
  unfold int_and toI32
  split <;> omega

theorem crc_table_length : _CRC_TABLE.length = 256 := by
  simp [_CRC_TABLE, _build_crc_table]

theorem crc_index_range (c crc : Int) : 0 ≤ crc_index c crc ∧ crc_index c crc ≤ 255 := by
  unfold crc_index
  rw [show (0xff : Int) = 255 from rfl, int_and_255_eq]
  omega

theorem table_entry_unsigned (i : Fin 256) :
    (_build_crc_table[i.val]?).map toU32 =
      some ((List.range 8).foldl (fun crc _ => spec_crc_round crc) i.val) := by
  have h : spec_CrcTable[i.val]? =
      some ((List.range 8).foldl (fun crc _ => spec_crc_round crc) i.val) := by
    simp [spec_CrcTable, List.getElem?_map, List.getElem?_range i.isLt]
  rw [← h, ← table_patterns, List.getElem?_map]
  rfl


/-! ## The keystream and the low bits of `key2` -/

theorem or_two_bit (b0 b1 : Bool) (q : Nat) :
    Nat.bit b0 (Nat.bit b1 q) ||| 2 = Nat.bit b0 (Nat.bit true q) := by
  have h : (2 : Nat) = Nat.bit false (Nat.bit true 0) := rfl
  rw [h, Nat.lor_bit, Nat.lor_bit]
  simp

theorem xor_one_bit (b0 : Bool) (n : Nat) :
    Nat.bit b0 n ^^^ 1 = Nat.bit (!b0) n := by
  have h : (1 : Nat) = Nat.bit true 0 := rfl
  rw [h, Nat.xor_bit]
  cases b0 <;> simp

theorem or_two_mul_xor_one_bit (b0 b1 : Bool) (q : Nat) :
    (Nat.bit b0 (Nat.bit b1 q) ||| 2) * ((Nat.bit b0 (Nat.bit b1 q) ||| 2) ^^^ 1) =
      (4 * (Nat.bit b0 (Nat.bit b1 q) / 4) + 2) * (4 * (Nat.bit b0 (Nat.bit b1 q) / 4) + 3) := by
  have hq : Nat.bit b0 (Nat.bit b1 q) / 4 = q := by
    simp only [Nat.bit_val]
    cases b0 <;> cases b1 <;> simp <;> omega
  rw [or_two_bit, xor_one_bit, hq]
  simp only [Nat.bit_val]
  cases b0 <;> simp <;> ring

theorem or_two_mul_xor_one (m : Nat) :
    (m ||| 2) * ((m ||| 2) ^^^ 1) = (4 * (m / 4) + 2) * (4 * (m / 4) + 3) := by
  have h := or_two_mul_xor_one_bit (m.testBit 0) ((m >>> 1).testBit 0) (m >>> 1 >>> 1)
  rwa [Nat.bit_testBit_zero_shiftRight_one, Nat.bit_testBit_zero_shiftRight_one] at h

theorem keystream_of_bits_2_15 (a b : Int) (h : a / 4 % 16384 = b / 4 % 16384) :
    keystream a = keystream b := by
  have hm : (a % 65536).toNat / 4 = (b % 65536).toNat / 4 := by omega
  rw [keystream_exact, keystream_exact, or_two_mul_xor_one, or_two_mul_xor_one, hm]


/-! ## Register dependencies -/

theorem fold_keys_key0 (bs : List Byte) (s t : ZipDecrypter) (h0 : s.key0 = t.key0) :
    (bs.foldl (fun s b => _update_keys (charVal b) s) s).key0 =
      (bs.foldl (fun s b => _update_keys (charVal b) s) t).key0 := by
  induction bs generalizing s t with
  | nil => exact h0
  | cons b rest ih =>
    simp only [List.foldl_cons]
    apply ih
    show _crc32 (charVal b) s.key0 = _crc32 (charVal b) t.key0
    rw [h0]

theorem fold_keys_key1 (bs : List Byte) (s t : ZipDecrypter) (h0 : s.key0 = t.key0)
    (h1 : s.key1 = t.key1) :
    (bs.foldl (fun s b => _update_keys (charVal b) s) s).key1 =
      (bs.foldl (fun s b => _update_keys (charVal b) s) t).key1 := by
  induction bs generalizing s t with
  | nil => exact h1
  | cons b rest ih =>
    simp only [List.foldl_cons]
    apply ih
    · show _crc32 (charVal b) s.key0 = _crc32 (charVal b) t.key0
      rw [h0]
    · simp only [_update_keys, h0, h1]

/-! ## Injectivity of the key update -/

theorem top_bytes_nodup : (spec_CrcTable.map (fun x => x / 16777216)).Nodup := by decide!

theorem spec_table_length : spec_CrcTable.length = 256 := by
  simp [spec_CrcTable]

theorem top_byte_inj (i j : Nat) (hi : i < 256) (hj : j < 256)
    (h : spec_CrcTable.getD i 0 / 16777216 = spec_CrcTable.getD j 0 / 16777216) : i = j := by
  have hli : i < (spec_CrcTable.map (fun x => x / 16777216)).length := by
    rw [List.length_map, spec_table_length]; exact hi
  have hlj : j < (spec_CrcTable.map (fun x => x / 16777216)).length := by
    rw [List.length_map, spec_table_length]; exact hj
  have hi2 : i < spec_CrcTable.length := by rw [spec_table_length]; exact hi
  have hj2 : j < spec_CrcTable.length := by rw [spec_table_length]; exact hj
  rw [List.getD_eq_getElem _ _ hi2, List.getD_eq_getElem _ _ hj2] at h
  have hinj := List.nodup_iff_injective_getElem.mp top_bytes_nodup
  have := @hinj ⟨i, hli⟩ ⟨j, hlj⟩ (by simpa using h)
  simpa using this

theorem xor_top_byte (a t : Nat) (ha : a < 16777216) :
    (a ^^^ t) / 16777216 = t / 16777216 := by
  have e : ∀ x : Nat, x / 16777216 = x >>> 24 := fun x => (Nat.shiftRight_eq_div_pow x 24).symm
  rw [e, e]
  apply Nat.eq_of_testBit_eq
  intro k
  have hk : a.testBit (24 + k) = false := by
    apply Nat.testBit_lt_two_pow
    calc a < 2 ^ 24 := ha
      _ ≤ 2 ^ (24 + k) := Nat.pow_le_pow_right (by decide) (by omega)
  simp [Nat.testBit_shiftRight, Nat.testBit_xor, hk]

theorem spec_crc32_step_inj (b x y : Nat) (hx : x < 4294967296) (hy : y < 4294967296)
    (h : spec_crc32_step b x = spec_crc32_step b y) : x = y := by
  unfold spec_crc32_step at h
  rw [show (0x00FFFFFF : Nat) = 16777215 from rfl, show (0xFF : Nat) = 255 from rfl,
    and_16777215, and_16777215, and_255, and_255, Nat.shiftRight_eq_div_pow,
    Nat.shiftRight_eq_div_pow] at h
  have hax : x / 2 ^ 8 % 16777216 < 16777216 := Nat.mod_lt _ (by decide)
  have hay : y / 2 ^ 8 % 16777216 < 16777216 := Nat.mod_lt _ (by decide)
  have htop := congrArg (fun v => v / 16777216) h
  simp only [xor_top_byte _ _ hax, xor_top_byte _ _ hay] at htop
  have hidx : (x ^^^ b) % 256 = (y ^^^ b) % 256 :=
    top_byte_inj _ _ (Nat.mod_lt _ (by decide)) (Nat.mod_lt _ (by decide)) htop
  rw [hidx] at h
  have hhi : x / 2 ^ 8 % 16777216 = y / 2 ^ 8 % 16777216 := Nat.xor_left_inj.mp h
  rw [xor_mod_256, xor_mod_256 y b] at hidx
  have hlo : x % 256 = y % 256 := Nat.xor_left_inj.mp hidx
  norm_num at hhi
  omega

theorem key1_mul_inj (u v : Nat) (hu : u < 4294967296) (hv : v < 4294967296)
    (h : (u * 134775813 + 1) % 4294967296 = (v * 134775813 + 1) % 4294967296) : u = v := by
  have h1 : u * 134775813 + 1 ≡ v * 134775813 + 1 [MOD 4294967296] := h
  have h2 : u * 134775813 ≡ v * 134775813 [MOD 4294967296] := Nat.ModEq.add_right_cancel' 1 h1
  have h3 : u ≡ v [MOD 4294967296] :=
    Nat.ModEq.cancel_right_of_coprime (by norm_num) h2
  have h4 : u % 4294967296 = v % 4294967296 := h3
  clear h h1 h2 h3
  omega

theorem key1_step_inj (u v a : Nat) (hu : u < 4294967296) (hv : v < 4294967296)
    (h : ((u + a) % 4294967296 * 134775813 + 1) % 4294967296 =
      ((v + a) % 4294967296 * 134775813 + 1) % 4294967296) : u = v := by
  have h1 : (u + a) % 4294967296 = (v + a) % 4294967296 :=
    key1_mul_inj _ _ (Nat.mod_lt _ (by decide)) (Nat.mod_lt _ (by decide)) h
  clear h
  omega

theorem spec_update_keys_inj (b : Nat) (s t : Nat × Nat × Nat)
    (hs0 : s.1 < 4294967296) (hs1 : s.2.1 < 4294967296) (hs2 : s.2.2 < 4294967296)
    (ht0 : t.1 < 4294967296) (ht1 : t.2.1 < 4294967296) (ht2 : t.2.2 < 4294967296)
    (h : spec_update_keys b s = spec_update_keys b t) : s = t := by
  obtain ⟨s0, s1, s2⟩ := s
  obtain ⟨t0, t1, t2⟩ := t
  simp only [spec_update_keys, Prod.mk.injEq] at h
  obtain ⟨h0, h1, h2⟩ := h
  have e0 : s0 = t0 := spec_crc32_step_inj b s0 t0 hs0 ht0 h0
  subst e0
  have e1 : s1 = t1 := key1_step_inj s1 t1 _ hs1 ht1 h1
  subst e1
  have e2 : s2 = t2 := spec_crc32_step_inj _ s2 t2 hs2 ht2 h2
  subst e2
  rfl

theorem update_keys_pattern_inj (c : Int) (s t : ZipDecrypter)
    (h : _update_keys c s = _update_keys c t) :
    toU32 s.key0 = toU32 t.key0 ∧ toU32 s.key1 = toU32 t.key1 ∧ toU32 s.key2 = toU32 t.key2 := by
  have hp := update_keys_patterns c s
  rw [h, update_keys_patterns c t] at hp
  have := spec_update_keys_inj _ _ _ (toU32_lt _) (toU32_lt _) (toU32_lt _) (toU32_lt _)
    (toU32_lt _) (toU32_lt _) hp
  simp only [Prod.mk.injEq] at this
  exact ⟨this.1.symm, this.2.1.symm, this.2.2.symm⟩


theorem toU32_inj_of_range (x y : Int) (hx : -2147483648 ≤ x ∧ x < 2147483648)
    (hy : -2147483648 ≤ y ∧ y < 2147483648) (h : toU32 x = toU32 y) : x = y := by
  unfold toU32 at h
  omega

theorem keys_ext (a b : ZipDecrypter) (h0 : a.key0 = b.key0) (h1 : a.key1 = b.key1)
    (h2 : a.key2 = b.key2) : a = b := by
  cases a
  cases b
  simp_all

theorem update_keys_eq_of_patterns (c d : Int) (s t : ZipDecrypter)
    (h : toU32 (_update_keys c s).key0 = toU32 (_update_keys d t).key0 ∧
      toU32 (_update_keys c s).key1 = toU32 (_update_keys d t).key1 ∧
      toU32 (_update_keys c s).key2 = toU32 (_update_keys d t).key2) :
    _update_keys c s = _update_keys d t :=
  keys_ext _ _
    (toU32_inj_of_range _ _ (crc32_range _ _) (crc32_range _ _) h.1)
    (toU32_inj_of_range _ _ (toI32_range _) (toI32_range _) h.2.1)
    (toU32_inj_of_range _ _ (crc32_range _ _) (crc32_range _ _) h.2.2)

theorem fold_keys_pattern_inj (bs : List Byte) (s t : ZipDecrypter)
    (h : bs.foldl (fun s b => _update_keys (charVal b) s) s =
      bs.foldl (fun s b => _update_keys (charVal b) s) t) :
    toU32 s.key0 = toU32 t.key0 ∧ toU32 s.key1 = toU32 t.key1 ∧ toU32 s.key2 = toU32 t.key2 := by
  induction bs generalizing s t with
  | nil =>
    have e : s = t := h
    subst e
    exact ⟨rfl, rfl, rfl⟩
  | cons b rest ih =>
    simp only [List.foldl_cons] at h
    exact update_keys_pattern_inj _ s t (update_keys_eq_of_patterns _ _ s t (ih _ _ h))

/-! ## Claims -/

/-- C1. Round trip: for every password `P` and every byte sequence `S`, decrypting
from a freshly initialised state the output of encrypting `S` from another
freshly initialised state returns exactly `S`. -/
theorem decrypt_encrypt_roundtrip (P S : List Byte) :
    (zipdecrypter_decrypt (zipdecrypter_encrypt S (zipdecrypter_init P)).1
      (zipdecrypter_init P)).1 = S := by
  rw [decrypt_encrypt_pair]

/-- C2. The other order: for every password `P` and every byte sequence `C`,
encrypting from a fresh state the output of decrypting `C` from another fresh
state returns exactly `C`. -/
theorem encrypt_decrypt_roundtrip (P C : List Byte) :
    (zipdecrypter_encrypt (zipdecrypter_decrypt C (zipdecrypter_init P)).1
      (zipdecrypter_init P)).1 = C := by
  rw [encrypt_decrypt_pair]

/-- C3. Chunking: for every password `P` and every list of chunks (empty chunks
included; the chunks are any partition of their concatenation `S`), feeding the
chunks in order to one handle, all through the call operation (decrypt) or all
through `e` (encrypt), gives outputs whose concatenation is the output of one
call on `S` from a fresh handle, and leaves the same registers. -/
theorem chunked_calls_agree (P : List Byte) (chunks : List (List Byte)) :
    ((feed zipdecrypter_call (zipdecrypter_init P) chunks).1.flatten =
        (zipdecrypter_call (zipdecrypter_init P) chunks.flatten).1 ∧
      (feed zipdecrypter_call (zipdecrypter_init P) chunks).2 =
        (zipdecrypter_call (zipdecrypter_init P) chunks.flatten).2) ∧
    ((feed zipdecrypter_e (zipdecrypter_init P) chunks).1.flatten =
        (zipdecrypter_e (zipdecrypter_init P) chunks.flatten).1 ∧
      (feed zipdecrypter_e (zipdecrypter_init P) chunks).2 =
        (zipdecrypter_e (zipdecrypter_init P) chunks.flatten).2) := by
  have hd := feed_call_flatten chunks (zipdecrypter_init P)
  have he := feed_e_flatten chunks (zipdecrypter_init P)
  rw [← hd, ← he]
  exact ⟨⟨rfl, rfl⟩, rfl, rfl⟩

/-- C4. The key schedule follows the plaintext in both directions: the registers
after encrypting `X` from `init(P)` are those of `init(P ++ X)`; the registers
after decrypting `X` from `init(P)` are those of `init(P ++ D)` with `D` the
output of that call; and after a round trip the decrypting handle holds the
registers of the encrypting handle. -/
theorem keys_follow_plaintext (P X : List Byte) :
    (zipdecrypter_encrypt X (zipdecrypter_init P)).2 = zipdecrypter_init (P ++ X) ∧
    (zipdecrypter_decrypt X (zipdecrypter_init P)).2 =
      zipdecrypter_init (P ++ (zipdecrypter_decrypt X (zipdecrypter_init P)).1) ∧
    (zipdecrypter_decrypt (zipdecrypter_encrypt X (zipdecrypter_init P)).1
      (zipdecrypter_init P)).2 = (zipdecrypter_encrypt X (zipdecrypter_init P)).2 := by
  refine ⟨?_, ?_, ?_⟩
  · rw [encrypt_keys, init_append]
  · rw [init_append]
    exact decrypt_keys X (zipdecrypter_init P)
  · rw [decrypt_encrypt_pair]

/-- C5. Decrypt in closed form: for every password `P`, ciphertext `C` and index
`i < length C`, byte `i` of `D = decrypt(init(P), C)` is, as a value in
`0 .. 255`, `C[i]` XOR the keystream byte of the `key2` reached by folding
`_update_keys` over `P ++ D[0..i)` from `(0x12345678, 0x23456789, 0x34567890)`. -/
theorem decrypt_closed_form (P C : List Byte) (i : Nat) (h : i < C.length) :
    ((zipdecrypter_decrypt C (zipdecrypter_init P)).1[i]?).map Fin.val =
      some (C[i].val ^^^
        (keystream ((P ++ (zipdecrypter_decrypt C (zipdecrypter_init P)).1.take i).foldl
          (fun s b => _update_keys (charVal b) s)
          { key0 := 0x12345678, key1 := 0x23456789, key2 := 0x34567890 }).key2).toNat) := by
  rw [decrypt_byte_at C (zipdecrypter_init P) i h, List.foldl_append]
  rfl

/-- Witness of C5 at password `[1]`, ciphertext `[5, 7]`, index `1`. -/
theorem decrypt_closed_form_witness :
    1 < ([5, 7] : List Byte).length ∧
    ((zipdecrypter_decrypt [5, 7] (zipdecrypter_init [1])).1[1]?).map Fin.val =
      some ((7 : Byte).val ^^^
        (keystream (([1] ++ (zipdecrypter_decrypt [5, 7] (zipdecrypter_init [1])).1.take 1).foldl
          (fun s b => _update_keys (charVal b) s)
          { key0 := 0x12345678, key1 := 0x23456789, key2 := 0x34567890 }).key2).toNat) :=
  ⟨by decide, decrypt_closed_form [1] [5, 7] 1 (by decide)⟩

/-- C6. Length preservation: for every state and every buffer, the empty one
included, the outputs of the decrypt loop, of the encrypt loop, of the call
operation and of `e` have the length of the input. -/
theorem output_length_eq_input_length (s : ZipDecrypter) (buf : List Byte) :
    (zipdecrypter_decrypt buf s).1.length = buf.length ∧
    (zipdecrypter_encrypt buf s).1.length = buf.length ∧
    (zipdecrypter_call s buf).1.length = buf.length ∧
    (zipdecrypter_e s buf).1.length = buf.length :=
  ⟨decrypt_length buf s, encrypt_length buf s, decrypt_length buf s, encrypt_length buf s⟩

/-- C7. The signed key update agrees with the unsigned reading: for every
`char` value `c` and all `int` registers, the 32-bit patterns of the registers
`_update_keys` stores are the result of the four unsigned steps of the
specification on the patterns of the old registers, with `byte = c mod 256`. -/
theorem update_keys_signed_eq_unsigned (c key0 key1 key2 : Int) :
    (toU32 (_update_keys c { key0 := key0, key1 := key1, key2 := key2 }).key0,
      toU32 (_update_keys c { key0 := key0, key1 := key1, key2 := key2 }).key1,
      toU32 (_update_keys c { key0 := key0, key1 := key1, key2 := key2 }).key2) =
    spec_update_keys (c % 256).toNat (toU32 key0, toU32 key1, toU32 key2) :=
  update_keys_patterns c { key0 := key0, key1 := key1, key2 := key2 }

/-- C8. Keystream byte: for every `key2`, the byte computed by the C expression
(product wrapping modulo `2^32`, arithmetic shift) is
`floor(k * (k XOR 1) / 256) mod 256` in exact arithmetic with
`k = (key2 mod 2^16) | 2`, and lies in `0 .. 255`; the exact product does
exceed `2^31` for some `key2`. -/
theorem keystream_byte_exact :
    (∀ key2 : Int,
      keystream key2 =
        (((((key2 % 65536).toNat ||| 2) * (((key2 % 65536).toNat ||| 2) ^^^ 1) / 256 % 256 :
          Nat)) : Int) ∧
      0 ≤ keystream key2 ∧ keystream key2 ≤ 255) ∧
    (∃ key2 : Int,
      2 ^ 31 ≤ ((key2 % 65536).toNat ||| 2) * (((key2 % 65536).toNat ||| 2) ^^^ 1)) := by
  refine ⟨fun key2 => ⟨keystream_exact key2, ?_, ?_⟩, ⟨65535, by decide⟩⟩
  · rw [keystream_exact]; omega
  · rw [keystream_exact]; omega

/-- C9. Table golden values: after `_build_crc_table`, entry 0 of the table is
`0` and entry 1 is `0x77073096`. -/
theorem crc_table_golden :
    _build_crc_table[0]? = some 0 ∧ _build_crc_table[1]? = some 0x77073096 := by
  decide!

/-- C10. Initialising with the empty password leaves the registers at
`(0x12345678, 0x23456789, 0x34567890)`. -/
theorem init_empty_password :
    zipdecrypter_init [] = { key0 := 0x12345678, key1 := 0x23456789, key2 := 0x34567890 } :=
  rfl

/-- C11. Golden vector: from the state of the empty password, `k = 0x7892`, the
product `k * (k XOR 1)` is `0x38C9ABD6`, the keystream byte is `0xAB`, and
encrypting the single byte `0x00` outputs the single byte `0xAB`. -/
theorem golden_encrypt_zero_byte :
    toUShort (int_or (int_and (zipdecrypter_init []).key2 0xFFFF) 2) = 0x7892 ∧
    int_mul 0x7892 (int_xor 0x7892 1) = 0x38C9ABD6 ∧
    keystream (zipdecrypter_init []).key2 = 0xAB ∧
    (zipdecrypter_encrypt [0x00] (zipdecrypter_init [])).1 = [0xAB] := by
  decide

/-- C12. Table construction against the unsigned reference: the polynomial is
held as a negative `int`, and for every `i` in `0 .. 255` the entry that
`_build_crc_table` stores at index `i`, read as a 32-bit pattern, is the result
of eight rounds of the unsigned rule started from `crc = i`. -/
theorem crc_table_signed_eq_unsigned :
    _CRC_POLY < 0 ∧
    ∀ i : Fin 256, (_build_crc_table[i.val]?).map toU32 =
      some ((List.range 8).foldl (fun crc _ => spec_crc_round crc) i.val) :=
  ⟨by decide, table_entry_unsigned⟩

/-- C13, as stated, fails: from the state of the empty password, the key update
with the byte `0` stores the negative value `-1057813658` in `key1`. -/
theorem update_keys_stores_negative :
    (_update_keys 0 (zipdecrypter_init [])).key1 = -1057813658 ∧
    ¬ (0 ≤ (_update_keys 0 (zipdecrypter_init [])).key0 ∧
       0 ≤ (_update_keys 0 (zipdecrypter_init [])).key1 ∧
       0 ≤ (_update_keys 0 (zipdecrypter_init [])).key2) := by
  decide!

/-- C13, amended. For every `char` value and every state, the values that
`_update_keys` stores in `key0`, `key1` and `key2` lie in the signed 32-bit
range; the mask `& 0xffffff` makes the shifted term of `_crc32` non-negative,
and `& 0xFFFFFFFF` only reduces a value modulo `2^32` before it is stored back
in the `int`. -/
theorem update_keys_registers_in_int_range (c : Int) (s : ZipDecrypter) :
    (-2147483648 ≤ (_update_keys c s).key0 ∧ (_update_keys c s).key0 < 2147483648) ∧
    (-2147483648 ≤ (_update_keys c s).key1 ∧ (_update_keys c s).key1 < 2147483648) ∧
    (-2147483648 ≤ (_update_keys c s).key2 ∧ (_update_keys c s).key2 < 2147483648) ∧
    (0 ≤ int_and (int_shr s.key0 8) 0xffffff ∧ int_and (int_shr s.key0 8) 0xffffff < 16777216) ∧
    (0 ≤ int_and (int_shr s.key2 8) 0xffffff ∧ int_and (int_shr s.key2 8) 0xffffff < 16777216) ∧
    ∀ a : Int, int_and_u32 a 0xFFFFFFFF = toI32 (toU32 a) := by
  refine ⟨crc32_range _ _, toI32_range _, crc32_range _ _, shr8_mask_range _, shr8_mask_range _, ?_⟩
  intro a
  unfold int_and_u32
  rw [show (0xFFFFFFFF : Nat) = 4294967295 from rfl, and_4294967295]
  unfold toI32
  simp only [Nat.mod_mod]

/-- C14. Table lookup is in bounds: for every `char` value `c` and every `int`
`crc`, negative ones included, the index `(crc ^ c) & 0xff` of `_crc32` lies in
`0 .. 255`, below the length of the table, so the lookup finds an entry, which
is the one `_crc32` uses. -/
theorem crc_table_lookup_in_bounds (c crc : Int) :
    0 ≤ crc_index c crc ∧ crc_index c crc ≤ 255 ∧
    (crc_index c crc).toNat < _CRC_TABLE.length ∧
    ∃ e, _CRC_TABLE[(crc_index c crc).toNat]? = some e ∧
      _crc32 c crc = int_xor (int_and (int_shr crc 8) 0xffffff) e := by
  have hr := crc_index_range c crc
  have hlen : (crc_index c crc).toNat < _CRC_TABLE.length := by
    rw [crc_table_length]; omega
  refine ⟨hr.1, hr.2, hlen, _CRC_TABLE[(crc_index c crc).toNat], ?_, ?_⟩
  · exact List.getElem?_eq_getElem hlen
  · unfold _crc32
    rw [List.getD_eq_getElem _ _ hlen]

/-- C15. Non-identity is not a law: with the password byte `3` the keystream
byte of the initial state is `0` and encrypting the byte `0x41` returns it
unchanged; with the empty password encrypting the byte `0` changes it. -/
theorem encrypt_identity_possible :
    (∃ P : List Byte, ∃ b : Byte, keystream (zipdecrypter_init P).key2 = 0 ∧
      (zipdecrypter_encrypt [b] (zipdecrypter_init P)).1 = [b]) ∧
    (∃ P : List Byte, ∃ b : Byte,
      (zipdecrypter_encrypt [b] (zipdecrypter_init P)).1 ≠ [b]) :=
  ⟨⟨[3], 0x41, by decide!, by decide!⟩, ⟨[], 0, by decide⟩⟩


/-- C16. The keystream byte depends only on bits 2 to 15 of `key2`: for every
two states whose `key2` agree on bits 2 to 15 (whatever bits 0, 1, 16..31 of
`key2`, and `key0` and `key1`, are) and every data byte, the keystream bytes
are equal and decrypt and encrypt produce the same output byte. -/
theorem keystream_depends_on_bits_2_15 (s t : ZipDecrypter) (x : Byte)
    (h : s.key2 / 4 % 16384 = t.key2 / 4 % 16384) :
    keystream s.key2 = keystream t.key2 ∧
    (zipdecrypter_decrypt [x] s).1 = (zipdecrypter_decrypt [x] t).1 ∧
    (zipdecrypter_encrypt [x] s).1 = (zipdecrypter_encrypt [x] t).1 := by
  have hk := keystream_of_bits_2_15 s.key2 t.key2 h
  refine ⟨hk, ?_, ?_⟩
  · simp only [zipdecrypter_decrypt, hk]
  · simp only [zipdecrypter_encrypt, hk]

/-- Witness of C16: the `key2` values `0x34567890` and `0x84567893 - 2^32`, which
differ in bits 0, 1 and 16..31, with different `key0` and `key1`. -/
theorem keystream_depends_on_bits_2_15_witness :
    (878082192 : Int) / 4 % 16384 = (-2074707821 : Int) / 4 % 16384 ∧
    keystream 878082192 = keystream (-2074707821) ∧
    (zipdecrypter_decrypt [0x41] { key0 := 1, key1 := 2, key2 := 878082192 }).1 =
      (zipdecrypter_decrypt [0x41] { key0 := -7, key1 := 9, key2 := -2074707821 }).1 ∧
    (zipdecrypter_encrypt [0x41] { key0 := 1, key1 := 2, key2 := 878082192 }).1 =
      (zipdecrypter_encrypt [0x41] { key0 := -7, key1 := 9, key2 := -2074707821 }).1 :=
  ⟨by decide,
    keystream_depends_on_bits_2_15 { key0 := 1, key1 := 2, key2 := 878082192 }
      { key0 := -7, key1 := 9, key2 := -2074707821 } 0x41 (by decide)⟩

/-- C17. Register dependencies are one-way: for every byte sequence, two runs of
the key update that start with equal `key0` end with equal `key0`, whatever
`key1` and `key2` are; and if they also start with equal `key1`, they end with
equal `key1`, whatever `key2` is. -/
theorem registers_depend_one_way (bs : List Byte) (s t : ZipDecrypter)
    (h0 : s.key0 = t.key0) :
    (bs.foldl (fun s b => _update_keys (charVal b) s) s).key0 =
      (bs.foldl (fun s b => _update_keys (charVal b) s) t).key0 ∧
    (s.key1 = t.key1 →
      (bs.foldl (fun s b => _update_keys (charVal b) s) s).key1 =
        (bs.foldl (fun s b => _update_keys (charVal b) s) t).key1) :=
  ⟨fold_keys_key0 bs s t h0, fun h1 => fold_keys_key1 bs s t h0 h1⟩

/-- Witness of C17 at the bytes `[1, 200]`, from two states that share `key0`
and `key1` and differ in `key2`. -/
theorem registers_depend_one_way_witness :
    (5 : Int) = 5 ∧ (6 : Int) = 6 ∧
    (([1, 200] : List Byte).foldl (fun s b => _update_keys (charVal b) s)
        { key0 := 5, key1 := 6, key2 := 7 }).key0 =
      (([1, 200] : List Byte).foldl (fun s b => _update_keys (charVal b) s)
        { key0 := 5, key1 := 6, key2 := -8 }).key0 ∧
    (([1, 200] : List Byte).foldl (fun s b => _update_keys (charVal b) s)
        { key0 := 5, key1 := 6, key2 := 7 }).key1 =
      (([1, 200] : List Byte).foldl (fun s b => _update_keys (charVal b) s)
        { key0 := 5, key1 := 6, key2 := -8 }).key1 :=
  ⟨rfl, rfl,
    (registers_depend_one_way [1, 200] { key0 := 5, key1 := 6, key2 := 7 }
      { key0 := 5, key1 := 6, key2 := -8 } rfl).1,
    (registers_depend_one_way [1, 200] { key0 := 5, key1 := 6, key2 := 7 }
      { key0 := 5, key1 := 6, key2 := -8 } rfl).2 rfl⟩

/-- C18. The key update is injective in the state: for every `char` value `c`
and every two register triples, if `_update_keys` gives the same registers from
both, the two triples are equal as 32-bit patterns; hence two handles that reach
the same registers after consuming the same bytes started from the same
patterns. -/
theorem update_keys_injective (s t : ZipDecrypter) :
    (∀ c : Int, _update_keys c s = _update_keys c t →
      toU32 s.key0 = toU32 t.key0 ∧ toU32 s.key1 = toU32 t.key1 ∧
        toU32 s.key2 = toU32 t.key2) ∧
    (∀ bs : List Byte,
      bs.foldl (fun s b => _update_keys (charVal b) s) s =
        bs.foldl (fun s b => _update_keys (charVal b) s) t →
      toU32 s.key0 = toU32 t.key0 ∧ toU32 s.key1 = toU32 t.key1 ∧
        toU32 s.key2 = toU32 t.key2) :=
  ⟨fun c h => update_keys_pattern_inj c s t h, fun bs h => fold_keys_pattern_inj bs s t h⟩

/-- Witness of C18: two triples with the same 32-bit patterns, written with
different integers, and the byte `5`. -/
theorem update_keys_injective_witness :
    _update_keys 5 { key0 := 1, key1 := 2, key2 := -3 } =
      _update_keys 5 { key0 := 4294967297, key1 := -4294967294, key2 := 4294967293 } ∧
    toU32 1 = toU32 4294967297 ∧ toU32 2 = toU32 (-4294967294) ∧
      toU32 (-3) = toU32 4294967293 :=
  ⟨by decide!,
    (update_keys_injective { key0 := 1, key1 := 2, key2 := -3 }
      { key0 := 4294967297, key1 := -4294967294, key2 := 4294967293 }).1 5 (by decide!)⟩

end ZipDecrypt
